import Mathlib

/-!
Verification model of the PairHMM forward-algorithm core.

The repository's `src/main.cpp` wires an `InputReader` over testcases into a
dual-precision `Pairhmm` dispatcher and prints one stream of results.  The
engine headers (`pairhmm.h`, `pairhmm_impl.h`, `testcase.h`, ...) are not part
of the available sources, so the Quality-Model outputs, the Forward Engine and
the Precision Dispatcher are modelled from the design specification, in exact
rational arithmetic.
-/

/-- Modelled from the spec (Quality Model, §4.1): the six per-read-position
transition weights the recurrence consumes.  The Quality Model derives them
from the quality arrays; the Forward Engine only ever sees these outputs, so
they are modelled directly as functions of the (1-based) read position. -/
structure Params where
  mEmit : ℕ → ℚ
  xEmit : ℕ → ℚ
  oIns : ℕ → ℚ
  cIns : ℕ → ℚ
  oDel : ℕ → ℚ
  cDel : ℕ → ℚ

/-- Modelled from the spec (Data Model, §3): a testcase is a haplotype, a read,
and the per-read-position quality information (represented here by the
Quality-Model outputs consumed by the recurrence). -/
structure Testcase where
  hap : List Char
  read : List Char
  quals : Params

/-- 1-based base access into a sequence (positions `1..len`). -/
def baseAt (s : List Char) (k : ℕ) : Char := s.getD (k - 1) '?'

/-- Modelled from the spec (§4.3): `emission(i, read[i], haplotype[j])` is the
match emission when the bases agree and the mismatch emission otherwise. -/
def emission (tc : Testcase) (i j : ℕ) : ℚ :=
  if baseAt tc.read i = baseAt tc.hap j then tc.quals.mEmit i else tc.quals.xEmit i

/-- The "stay in match" weight `1 - open_insertion(i) - open_deletion(i)`. -/
def stayM (p : Params) (i : ℕ) : ℚ := 1 - p.oIns i - p.oDel i

/-- Modelled from the spec (§4.3): row 0 of the Match matrix carries "uniform
prior mass" over the `H` haplotype columns, so that an alignment may begin at
any column.  In this exact-arithmetic model the precision-dependent scaling
constant is taken to be `1`, so each of the `H` columns receives `1 / H`. -/
def initConst (H : ℕ) : ℚ := 1 / (H : ℚ)

/-- Row 0 of the Match matrix: `0` at column 0, the uniform constant at every
haplotype column `j ≥ 1`. -/
def row0M (H : ℕ) : ℕ → ℚ := fun j => if j = 0 then 0 else initConst H

/-- One Match row computed from the three previous rows (spec §4.3 recurrence,
first equation), as a function of the column index. -/
def mRow (tc : Testcase) (i : ℕ) (mp ip dp : ℕ → ℚ) : ℕ → ℚ
  | 0 => 0
  | j + 1 =>
    emission tc i (j + 1) *
      (mp j * stayM tc.quals i + ip j * (1 - tc.quals.cIns i) +
        dp j * (1 - tc.quals.cDel i))

/-- One Insertion row computed from the previous Match and Insertion rows
(spec §4.3 recurrence, second equation). -/
def iRow (p : Params) (i : ℕ) (mp ip : ℕ → ℚ) : ℕ → ℚ :=
  fun j => p.oIns i * mp j + p.cIns i * ip j

/-- One Deletion row computed along the current Match row (spec §4.3
recurrence, third equation); the recursion runs within the row. -/
def dRow (p : Params) (i : ℕ) (mc : ℕ → ℚ) : ℕ → ℚ
  | 0 => 0
  | j + 1 => p.oDel i * mc j + p.cDel i * dRow p i mc j

/-- Modelled from the spec (§4.2/§4.3): the rolling-row dynamic programme.
`rows tc i` is the triple (Match, Insertion, Deletion) of row `i`, each row a
function of the column index. -/
def rows (tc : Testcase) : ℕ → ((ℕ → ℚ) × (ℕ → ℚ) × (ℕ → ℚ))
  | 0 => (row0M tc.hap.length, fun _ => 0, fun _ => 0)
  | i + 1 =>
    let p := rows tc i
    let m := mRow tc (i + 1) p.1 p.2.1 p.2.2
    (m, iRow tc.quals (i + 1) p.1 p.2.1, dRow tc.quals (i + 1) m)

/-- Modelled from the spec (§4.3): the Forward Engine's result, the sum of
`M[R][j] + I[R][j]` over the haplotype columns `j = 1..H`. -/
def forwardEngine (tc : Testcase) : ℚ :=
  (Finset.range tc.hap.length).sum
    (fun j => (rows tc tc.read.length).1 (j + 1) + (rows tc tc.read.length).2.1 (j + 1))

/-- The three-state recurrence of spec §4.3 written as one mutual recursion on
the cell indices: `MID tc i j = (M[i][j], I[i][j], D[i][j])`. -/
def MID (tc : Testcase) : ℕ → ℕ → ℚ × ℚ × ℚ
  | 0, 0 => (0, 0, 0)
  | 0, _ + 1 => (initConst tc.hap.length, 0, 0)
  | _ + 1, 0 => (0, 0, 0)
  | i + 1, j + 1 =>
    let a := MID tc i j
    let b := MID tc i (j + 1)
    let c := MID tc (i + 1) j
    (emission tc (i + 1) (j + 1) *
       (a.1 * stayM tc.quals (i + 1) + a.2.1 * (1 - tc.quals.cIns (i + 1)) +
         a.2.2 * (1 - tc.quals.cDel (i + 1))),
     tc.quals.oIns (i + 1) * b.1 + tc.quals.cIns (i + 1) * b.2.1,
     tc.quals.oDel (i + 1) * c.1 + tc.quals.cDel (i + 1) * c.2.2)
  termination_by i j => (i, j)

/-- The Match matrix of the spec recurrence. -/
def Mspec (tc : Testcase) (i j : ℕ) : ℚ := (MID tc i j).1

/-- The Insertion matrix of the spec recurrence. -/
def Ispec (tc : Testcase) (i j : ℕ) : ℚ := (MID tc i j).2.1

/-- The Deletion matrix of the spec recurrence. -/
def Dspec (tc : Testcase) (i j : ℕ) : ℚ := (MID tc i j).2.2

/-- The two numeric modes of `Pairhmm<float-impl, double-impl>` in `main.cpp`. -/
inductive Precision where
  | reduced
  | full

/-- Modelled from the spec (§4.4): the outcome of the reduced-precision
(float) Forward Engine run — a scalar together with a finiteness flag, since
reduced precision may overflow to a non-finite value or underflow to zero.
The reduced-precision engine itself is kept abstract (a function parameter),
as its rounding behaviour is not part of the exact model. -/
structure FloatVal where
  finite : Bool
  val : ℚ

/-- Modelled from the spec (§4.4): the underflow-detection threshold, "a small
fixed multiple of the smallest normal value representable in reduced
precision" (for IEEE single precision, `2 ^ (-126)`). -/
def underflowThreshold : ℚ := 16 / 2 ^ 126

/-- Modelled from the spec (§4.4): a reduced-precision result is untrustworthy
when it is non-finite, zero, or below the underflow-detection threshold. -/
def untrustworthy (x : FloatVal) : Bool :=
  !x.finite || x.val == 0 || decide (x.val < underflowThreshold)

/-- Modelled from the spec (§4.4): the Precision Dispatcher.  It runs the
reduced-precision engine `fE` first; if the result is untrustworthy it re-runs
the same testcase through the full-precision engine `dE` and returns that
result instead.  The second component logs, in execution order, which engine
ran on which testcase. -/
def dispatch (fE : Testcase → FloatVal) (dE : Testcase → ℚ) (tc : Testcase) :
    ℚ × List (Precision × Testcase) :=
  let r := fE tc
  if untrustworthy r then (dE tc, [(Precision.reduced, tc), (Precision.full, tc)])
  else (r.val, [(Precision.reduced, tc)])

/-- `Pairhmm::calculate` of `main.cpp` as modelled from the spec: the
dispatcher with the exact forward engine as its full-precision instance. -/
def calculate (fE : Testcase → FloatVal) (tc : Testcase) :
    ℚ × List (Precision × Testcase) :=
  dispatch fE forwardEngine tc

/-- The result stream of the `main.cpp` loop: one result per testcase, in
input order (`for (auto& testcase : reader) ... cout << x`). -/
def mainRun (fE : Testcase → FloatVal) (tcs : List Testcase) : List ℚ :=
  tcs.map (fun tc => (calculate fE tc).1)

/-- Events of the `main.cpp` loop: an engine run for testcase `k`, or the
emission of testcase `k`'s result to the output stream. -/
inductive Ev where
  | comp (k : ℕ) (p : Precision)
  | emit (k : ℕ)

/-- The testcase index an event belongs to. -/
def Ev.idx : Ev → ℕ
  | .comp k _ => k
  | .emit k => k

/-- All events of one loop iteration: the engine runs of testcase `k` (in
execution order), then the emission of its result. -/
def block (fE : Testcase → FloatVal) (k : ℕ) (tc : Testcase) : List Ev :=
  ((calculate fE tc).2.map (fun e => Ev.comp k e.1)) ++ [Ev.emit k]

/-- The event trace of the `main.cpp` loop starting at testcase index `k`. -/
def traceFrom (fE : Testcase → FloatVal) : ℕ → List Testcase → List Ev
  | _, [] => []
  | k, tc :: rest => block fE k tc ++ traceFrom fE (k + 1) rest

/-- The full event trace of the `main.cpp` loop. -/
def trace (fE : Testcase → FloatVal) (tcs : List Testcase) : List Ev :=
  traceFrom fE 0 tcs

/-- Where `main.cpp` takes its testcases from. -/
inductive Source where
  | file (name : String)
  | defaultSrc

/-- `main.cpp` lines 20-22: with exactly two argv entries (`argc == 2`) the
reader is pointed at the file named by `argv[1]`; otherwise the reader keeps
its default source and any extra arguments are ignored. -/
def chooseSource (argv : List String) : Source :=
  if argv.length = 2 then Source.file (argv.getD 1 "") else Source.defaultSrc

/-- Uniform, well-behaved Quality-Model outputs used in concrete scenarios. -/
def pUnif : Params :=
  ⟨fun _ => 9 / 10, fun _ => 1 / 30, fun _ => 1 / 100, fun _ => 1 / 10,
   fun _ => 1 / 100, fun _ => 1 / 10⟩

/-- Concrete scenario: `haplotype = "ACGT"`, `read = "ACGT"`. -/
def tcACGT : Testcase := ⟨['A', 'C', 'G', 'T'], ['A', 'C', 'G', 'T'], pUnif⟩

/-- Concrete scenario: empty haplotype, non-empty read. -/
def tcNoHap : Testcase := ⟨[], ['A'], pUnif⟩

/-- Concrete scenario: empty haplotype and empty read. -/
def tcR0H0 : Testcase := ⟨[], [], pUnif⟩

/-- Concrete scenario: one-base haplotype, empty read. -/
def tcR0H1 : Testcase := ⟨['A'], [], pUnif⟩

/-- A fixed abstract reduced-precision engine used in closed witnesses. -/
def fE0 : Testcase → FloatVal := fun _ => ⟨true, 1 / 2⟩

/-- The Quality-Model contract of spec §4.1 at read position `i`: all outputs
are probabilities in `[0,1]` and the "stay in match" mass is non-negative. -/
def ValidAt (p : Params) (i : ℕ) : Prop :=
  0 ≤ p.mEmit i ∧ p.mEmit i ≤ 1 ∧ 0 ≤ p.xEmit i ∧ p.xEmit i ≤ 1 ∧
  0 ≤ p.oIns i ∧ 0 ≤ p.cIns i ∧ p.cIns i ≤ 1 ∧
  0 ≤ p.oDel i ∧ 0 ≤ p.cDel i ∧ p.cDel i ≤ 1 ∧
  p.oIns i + p.oDel i ≤ 1

/-- A testcase whose Quality-Model outputs satisfy the §4.1 contract at every
read position the recurrence uses. -/
def Valid (tc : Testcase) : Prop :=
  ∀ i, i < tc.read.length → ValidAt tc.quals (i + 1)

/-- Total Match mass of row `i` over the haplotype columns `0..H`. -/
def rowMassM (tc : Testcase) (i : ℕ) : ℚ :=
  (Finset.range (tc.hap.length + 1)).sum ((rows tc i).1)

/-- Total Insertion mass of row `i` over the haplotype columns `0..H`. -/
def rowMassI (tc : Testcase) (i : ℕ) : ℚ :=
  (Finset.range (tc.hap.length + 1)).sum ((rows tc i).2.1)

/-- Skewed but contract-satisfying Quality-Model outputs: perfect emissions,
no insertions, and deletion probabilities that vary across read positions
(open 1/2 then 0, continue 1 then 0). -/
def pSkew : Params :=
  ⟨fun _ => 1, fun _ => 0, fun _ => 0, fun _ => 0,
   fun i => if i = 1 then 1 / 2 else 0, fun i => if i = 1 then 1 else 0⟩

/-- A 12-base haplotype against a 2-base read under `pSkew`. -/
def tcSkew : Testcase :=
  ⟨['A', 'A', 'A', 'A', 'A', 'A', 'A', 'A', 'A', 'A', 'A', 'A'], ['A', 'A'], pSkew⟩

/-- Column 0 of the spec recurrence is zero in all three states. -/
lemma MID_col0 (tc : Testcase) (i : ℕ) : MID tc i 0 = (0, 0, 0) := by
  cases i <;> simp [MID]

/-- The rolling-row implementation computes exactly the cells of the spec
recurrence: row `i` of the DP equals `(Mspec, Ispec, Dspec)` at `i`. -/
lemma rows_eq_MID (tc : Testcase) (i : ℕ) :
    (∀ j, (rows tc i).1 j = Mspec tc i j) ∧
    (∀ j, (rows tc i).2.1 j = Ispec tc i j) ∧
    (∀ j, (rows tc i).2.2 j = Dspec tc i j) := by
  induction i with
  | zero =>
    refine ⟨?_, ?_, ?_⟩ <;> intro j <;> cases j <;>
      simp [rows, row0M, Mspec, Ispec, Dspec, MID]
  | succ i ih =>
    obtain ⟨hm, hi, hd⟩ := ih
    have hm' : ∀ j, (rows tc (i + 1)).1 j = Mspec tc (i + 1) j := by
      intro j
      cases j with
      | zero => simp [rows, mRow, Mspec, MID]
      | succ j =>
        simp only [rows, mRow, Mspec, MID, hm, hi, hd]
        simp [Mspec, Ispec, Dspec]
    have hi' : ∀ j, (rows tc (i + 1)).2.1 j = Ispec tc (i + 1) j := by
      intro j
      cases j with
      | zero =>
        simp only [rows, iRow, Ispec]
        rw [hm 0, hi 0]
        simp [Mspec, Ispec, MID_col0]
      | succ j =>
        simp only [rows, iRow, Ispec, MID, hm, hi]
        simp [Mspec, Ispec]
    have hd' : ∀ j, (rows tc (i + 1)).2.2 j = Dspec tc (i + 1) j := by
      intro j
      induction j with
      | zero => simp [rows, dRow, Dspec, MID_col0]
      | succ j ihj =>
        have hmc : (rows tc (i + 1)).1 j = Mspec tc (i + 1) j := hm' j
        simp only [rows, dRow, Dspec, MID] at ihj hmc ⊢
        rw [hmc, ihj]
        rfl
    exact ⟨hm', hi', hd'⟩

/-- Unfolding lemma for one step of the rolling-row DP. -/
lemma rows_succ (tc : Testcase) (i : ℕ) :
    rows tc (i + 1) =
      (mRow tc (i + 1) (rows tc i).1 (rows tc i).2.1 (rows tc i).2.2,
       iRow tc.quals (i + 1) (rows tc i).1 (rows tc i).2.1,
       dRow tc.quals (i + 1)
         (mRow tc (i + 1) (rows tc i).1 (rows tc i).2.1 (rows tc i).2.2)) := rfl

/-- With valid Quality-Model outputs every DP cell is non-negative. -/
lemma rows_nonneg (tc : Testcase) (hv : Valid tc) :
    ∀ i, i ≤ tc.read.length →
      (∀ j, 0 ≤ (rows tc i).1 j) ∧ (∀ j, 0 ≤ (rows tc i).2.1 j) ∧
      (∀ j, 0 ≤ (rows tc i).2.2 j) := by
  intro i
  induction i with
  | zero =>
    intro _
    refine ⟨fun j => ?_, fun j => le_refl 0, fun j => le_refl 0⟩
    show (0 : ℚ) ≤ row0M tc.hap.length j
    unfold row0M initConst
    split
    · exact le_refl 0
    · positivity
  | succ i ih =>
    intro hle
    obtain ⟨hm, hI, hd⟩ := ih (by omega)
    obtain ⟨e1, e2, e3, e4, o1, c1, c2, o2, c3, c4, s1⟩ := hv i (by omega)
    have hemi : ∀ j, 0 ≤ emission tc (i + 1) j := by
      intro j
      unfold emission
      split
      · exact e1
      · exact e3
    have hm' : ∀ j, 0 ≤ (rows tc (i + 1)).1 j := by
      intro j
      rw [rows_succ]
      cases j with
      | zero => exact le_refl 0
      | succ j =>
        show (0 : ℚ) ≤ emission tc (i + 1) (j + 1) * _
        refine mul_nonneg (hemi (j + 1)) ?_
        have hstay : (0 : ℚ) ≤ stayM tc.quals (i + 1) := by unfold stayM; linarith
        have h1 : (0 : ℚ) ≤ (rows tc i).1 j * stayM tc.quals (i + 1) :=
          mul_nonneg (hm j) hstay
        have h2 : (0 : ℚ) ≤ (rows tc i).2.1 j * (1 - tc.quals.cIns (i + 1)) :=
          mul_nonneg (hI j) (by linarith)
        have h3 : (0 : ℚ) ≤ (rows tc i).2.2 j * (1 - tc.quals.cDel (i + 1)) :=
          mul_nonneg (hd j) (by linarith)
        linarith
    have hi' : ∀ j, 0 ≤ (rows tc (i + 1)).2.1 j := by
      intro j
      rw [rows_succ]
      exact add_nonneg (mul_nonneg o1 (hm j)) (mul_nonneg c1 (hI j))
    have hd' : ∀ j, 0 ≤ (rows tc (i + 1)).2.2 j := by
      intro j
      induction j with
      | zero => rw [rows_succ]; exact le_refl 0
      | succ j ihj =>
        rw [rows_succ] at ihj ⊢
        show (0 : ℚ) ≤ tc.quals.oDel (i + 1) * _ + tc.quals.cDel (i + 1) * _
        have hmj := hm' j
        rw [rows_succ] at hmj
        exact add_nonneg (mul_nonneg o2 hmj) (mul_nonneg c3 ihj)
    exact ⟨hm', hi', hd'⟩

/-- Partial-sum bound for a Deletion row: the deletion mass it will hand to
the next Match row is at most the deletion-open mass taken from the current
Match row (strengthened form for the induction). -/
lemma dRow_mass (p : Params) (i : ℕ) (mc : ℕ → ℚ) :
    ∀ n, (1 - p.cDel i) * (Finset.range (n + 1)).sum (dRow p i mc) +
        p.cDel i * dRow p i mc n ≤ p.oDel i * (Finset.range n).sum mc := by
  intro n
  induction n with
  | zero => simp [dRow]
  | succ n ihn =>
    rw [Finset.sum_range_succ ((dRow p i mc)) (n + 1), Finset.sum_range_succ mc n]
    have hstep : dRow p i mc (n + 1) = p.oDel i * mc n + p.cDel i * dRow p i mc n := rfl
    rw [hstep]
    ring_nf
    ring_nf at ihn
    linarith

/-- Consequence of `dRow_mass`: the usable next-row mass of a Deletion row is
bounded by the deletion-open share of the current Match row. -/
lemma dRow_mass_le (p : Params) (i : ℕ) (mc : ℕ → ℚ)
    (hcd0 : 0 ≤ p.cDel i) (hod : 0 ≤ p.oDel i) (hmc : ∀ j, 0 ≤ mc j)
    (hdn : ∀ j, 0 ≤ dRow p i mc j) :
    ∀ n, (1 - p.cDel i) * (Finset.range n).sum (dRow p i mc) ≤
      p.oDel i * (Finset.range n).sum mc := by
  intro n
  cases n with
  | zero => simp
  | succ n =>
    have h := dRow_mass p i mc n
    have hdrop : 0 ≤ p.cDel i * dRow p i mc n := mul_nonneg hcd0 (hdn n)
    have hmono : (Finset.range n).sum mc ≤ (Finset.range (n + 1)).sum mc := by
      rw [Finset.sum_range_succ mc n]
      linarith [hmc n]
    have := mul_le_mul_of_nonneg_left hmono hod
    linarith

/-- Unfolding lemma for row 0 of the rolling-row DP. -/
lemma rows_zero (tc : Testcase) :
    rows tc 0 = (row0M tc.hap.length, fun _ => 0, fun _ => 0) := rfl

/-- Mass invariant: with valid Quality-Model outputs and position-independent
deletion-open and deletion-continue probabilities, the total Match+Insertion
mass of every row is at most the initial mass `1`. -/
lemma mass_invariant (tc : Testcase) (hv : Valid tc) (od cd : ℚ)
    (hod : ∀ i, tc.quals.oDel i = od) (hcd : ∀ i, tc.quals.cDel i = cd) :
    ∀ i, i ≤ tc.read.length → rowMassM tc i + rowMassI tc i ≤ 1 := by
  intro i
  induction i with
  | zero =>
    intro _
    unfold rowMassM rowMassI
    rw [rows_zero]
    rw [Finset.sum_range_succ' (row0M tc.hap.length) tc.hap.length]
    simp only [row0M, Nat.succ_ne_zero, if_neg, if_pos, Finset.sum_const,
      Finset.card_range, nsmul_eq_mul, Finset.sum_const_zero]
    simp only [initConst, if_false, mul_zero, add_zero]
    rcases eq_or_ne tc.hap.length 0 with h0 | h0
    · simp [h0]
    · have hne : (tc.hap.length : ℚ) ≠ 0 := Nat.cast_ne_zero.mpr h0
      rw [mul_one_div, div_self hne]
  | succ i ih =>
    intro hle
    have hABi := ih (by omega)
    obtain ⟨hmN, hiN, hdN⟩ := rows_nonneg tc hv i (by omega)
    obtain ⟨e1, e2, e3, e4, o1, c1, c2, o2, c3, c4, s1⟩ := hv i (by omega)
    rw [hod] at s1 o2
    rw [hcd] at c3 c4
    have hstay : (0 : ℚ) ≤ 1 - tc.quals.oIns (i + 1) - od := by linarith
    have hemle : ∀ j, emission tc (i + 1) j ≤ 1 := by
      intro j
      unfold emission
      split
      · exact e2
      · exact e4
    have hemnn : ∀ j, 0 ≤ emission tc (i + 1) j := by
      intro j
      unfold emission
      split
      · exact e1
      · exact e3
    have hMnew : rowMassM tc (i + 1) ≤
        (1 - tc.quals.oIns (i + 1) - od) * (Finset.range tc.hap.length).sum (rows tc i).1 +
        (1 - tc.quals.cIns (i + 1)) * (Finset.range tc.hap.length).sum (rows tc i).2.1 +
        (1 - cd) * (Finset.range tc.hap.length).sum (rows tc i).2.2 := by
      unfold rowMassM
      rw [rows_succ]
      rw [Finset.sum_range_succ'
        (mRow tc (i + 1) (rows tc i).1 (rows tc i).2.1 (rows tc i).2.2) tc.hap.length]
      have hm0 : mRow tc (i + 1) (rows tc i).1 (rows tc i).2.1 (rows tc i).2.2 0 = 0 := rfl
      rw [hm0, add_zero]
      have hterm : ∀ j ∈ Finset.range tc.hap.length,
          mRow tc (i + 1) (rows tc i).1 (rows tc i).2.1 (rows tc i).2.2 (j + 1) ≤
            (rows tc i).1 j * (1 - tc.quals.oIns (i + 1) - od) +
            ((rows tc i).2.1 j * (1 - tc.quals.cIns (i + 1)) +
             (rows tc i).2.2 j * (1 - cd)) := by
        intro j _
        have hX : (0 : ℚ) ≤
            (rows tc i).1 j * stayM tc.quals (i + 1) +
            (rows tc i).2.1 j * (1 - tc.quals.cIns (i + 1)) +
            (rows tc i).2.2 j * (1 - tc.quals.cDel (i + 1)) := by
          have h1 : (0 : ℚ) ≤ (rows tc i).1 j * stayM tc.quals (i + 1) :=
            mul_nonneg (hmN j) (by unfold stayM; rw [hod]; linarith)
          have h2 : (0 : ℚ) ≤ (rows tc i).2.1 j * (1 - tc.quals.cIns (i + 1)) :=
            mul_nonneg (hiN j) (by linarith)
          have h3 : (0 : ℚ) ≤ (rows tc i).2.2 j * (1 - tc.quals.cDel (i + 1)) :=
            mul_nonneg (hdN j) (by rw [hcd]; linarith)
          linarith
        have hle1 := mul_le_of_le_one_left hX (hemle (j + 1))
        have hshape : mRow tc (i + 1) (rows tc i).1 (rows tc i).2.1 (rows tc i).2.2 (j + 1) =
            emission tc (i + 1) (j + 1) *
              ((rows tc i).1 j * stayM tc.quals (i + 1) +
               (rows tc i).2.1 j * (1 - tc.quals.cIns (i + 1)) +
               (rows tc i).2.2 j * (1 - tc.quals.cDel (i + 1))) := rfl
        rw [hshape]
        unfold stayM at hle1 ⊢
        rw [hod, hcd] at hle1 ⊢
        linarith
      have hsum := Finset.sum_le_sum hterm
      refine le_trans hsum ?_
      rw [Finset.sum_add_distrib, Finset.sum_add_distrib,
        ← Finset.sum_mul, ← Finset.sum_mul, ← Finset.sum_mul]
      ring_nf
      exact le_refl _
    have hInew : rowMassI tc (i + 1) =
        tc.quals.oIns (i + 1) * rowMassM tc i + tc.quals.cIns (i + 1) * rowMassI tc i := by
      unfold rowMassM rowMassI
      rw [rows_succ]
      have hshape : (iRow tc.quals (i + 1) (rows tc i).1 (rows tc i).2.1) = fun j =>
          tc.quals.oIns (i + 1) * (rows tc i).1 j + tc.quals.cIns (i + 1) * (rows tc i).2.1 j :=
        rfl
      rw [hshape, Finset.sum_add_distrib, ← Finset.mul_sum, ← Finset.mul_sum]
    have hDbound : (1 - cd) * (Finset.range tc.hap.length).sum (rows tc i).2.2 ≤
        od * (Finset.range tc.hap.length).sum (rows tc i).1 := by
      cases i with
      | zero =>
        have hzero : (rows tc 0).2.2 = (fun _ => (0 : ℚ)) := rfl
        rw [hzero]
        simp only [Finset.sum_const_zero, mul_zero]
        exact mul_nonneg o2 (Finset.sum_nonneg (fun j _ => hmN j))
      | succ i' =>
        have hdp : (rows tc (i' + 1)).2.2 =
            dRow tc.quals (i' + 1) ((rows tc (i' + 1)).1) := by rw [rows_succ]
        have hcd0 : 0 ≤ tc.quals.cDel (i' + 1) := by rw [hcd]; linarith
        have hod0 : 0 ≤ tc.quals.oDel (i' + 1) := by rw [hod]; linarith
        have hdnn : ∀ j, 0 ≤ dRow tc.quals (i' + 1) ((rows tc (i' + 1)).1) j := by
          intro j
          rw [← hdp]
          exact hdN j
        have h := dRow_mass_le tc.quals (i' + 1) ((rows tc (i' + 1)).1) hcd0 hod0 hmN hdnn
          tc.hap.length
        rw [hcd, hod] at h
        rw [hdp]
        exact h
    have hSmAm : (Finset.range tc.hap.length).sum (rows tc i).1 ≤ rowMassM tc i := by
      unfold rowMassM
      rw [Finset.sum_range_succ ((rows tc i).1) tc.hap.length]
      linarith [hmN tc.hap.length]
    have hSiAi : (Finset.range tc.hap.length).sum (rows tc i).2.1 ≤ rowMassI tc i := by
      unfold rowMassI
      rw [Finset.sum_range_succ ((rows tc i).2.1) tc.hap.length]
      linarith [hiN tc.hap.length]
    have hb1 : (1 - tc.quals.oIns (i + 1) - od) * (Finset.range tc.hap.length).sum (rows tc i).1 ≤
        (1 - tc.quals.oIns (i + 1) - od) * rowMassM tc i :=
      mul_le_mul_of_nonneg_left hSmAm hstay
    have hb2 : (1 - tc.quals.cIns (i + 1)) * (Finset.range tc.hap.length).sum (rows tc i).2.1 ≤
        (1 - tc.quals.cIns (i + 1)) * rowMassI tc i :=
      mul_le_mul_of_nonneg_left hSiAi (by linarith)
    have hb3 : od * (Finset.range tc.hap.length).sum (rows tc i).1 ≤ od * rowMassM tc i :=
      mul_le_mul_of_nonneg_left hSmAm (by linarith)
    linarith

/-- Every event of one loop iteration carries that iteration's testcase
index. -/
lemma idx_mem_block (fE : Testcase → FloatVal) (k : ℕ) (tc : Testcase) :
    ∀ e ∈ block fE k tc, Ev.idx e = k := by
  intro e he
  simp only [block, List.mem_append, List.mem_map, List.mem_singleton] at he
  rcases he with ⟨a, _, rfl⟩ | rfl <;> rfl

/-- Events of later iterations carry indices at least the starting index. -/
lemma le_idx_of_mem_traceFrom (fE : Testcase → FloatVal) :
    ∀ (l : List Testcase) (k : ℕ) (e : Ev), e ∈ traceFrom fE k l → k ≤ Ev.idx e := by
  intro l
  induction l with
  | nil => intro k e he; simp [traceFrom] at he
  | cons tc rest ih =>
    intro k e he
    rw [traceFrom, List.mem_append] at he
    rcases he with h | h
    · exact le_of_eq (idx_mem_block fE k tc e h).symm
    · exact le_trans (Nat.le_succ k) (ih (k + 1) e h)

/-- The loop trace is sorted by testcase index. -/
lemma traceFrom_pairwise (fE : Testcase → FloatVal) :
    ∀ (l : List Testcase) (k : ℕ),
      (traceFrom fE k l).Pairwise (fun a b => Ev.idx a ≤ Ev.idx b) := by
  intro l
  induction l with
  | nil => intro k; simp [traceFrom]
  | cons tc rest ih =>
    intro k
    rw [traceFrom, List.pairwise_append]
    refine ⟨?_, ih (k + 1), ?_⟩
    · refine List.pairwise_of_forall_mem_list (fun a ha b hb => ?_)
      rw [idx_mem_block fE k tc a ha, idx_mem_block fE k tc b hb]
    · intro a ha b hb
      rw [idx_mem_block fE k tc a ha]
      exact le_trans (Nat.le_succ k) (le_idx_of_mem_traceFrom fE rest (k + 1) b hb)

/-- The events of testcase `k` in the trace are exactly its block: engine runs
in execution order, then the emission of its result. -/
lemma traceFrom_filter (fE : Testcase → FloatVal) :
    ∀ (l : List Testcase) (c k : ℕ) (tc : Testcase), l.get? k = some tc →
      (traceFrom fE c l).filter (fun e => Ev.idx e == c + k) = block fE (c + k) tc := by
  intro l
  induction l with
  | nil => intro c k tc h; simp at h
  | cons tc0 rest ih =>
    intro c k tc h
    cases k with
    | zero =>
      obtain rfl : tc0 = tc := by simpa using h
      rw [traceFrom, List.filter_append, Nat.add_zero]
      have h1 : (block fE c tc0).filter (fun e => Ev.idx e == c) = block fE c tc0 :=
        List.filter_eq_self.mpr (fun e he => by simp [idx_mem_block fE c tc0 e he])
      have h2 : (traceFrom fE (c + 1) rest).filter (fun e => Ev.idx e == c) = [] := by
        refine List.filter_eq_nil.mpr (fun e he => ?_)
        have hle := le_idx_of_mem_traceFrom fE rest (c + 1) e he
        simp only [beq_iff_eq]
        omega
      rw [h1, h2, List.append_nil]
    | succ k =>
      rw [traceFrom, List.filter_append]
      have h1 : (block fE c tc0).filter (fun e => Ev.idx e == c + (k + 1)) = [] := by
        refine List.filter_eq_nil.mpr (fun e he => ?_)
        have heq := idx_mem_block fE c tc0 e he
        simp only [beq_iff_eq, heq]
        omega
      have hkey : c + (k + 1) = (c + 1) + k := by omega
      rw [h1, List.nil_append, hkey]
      exact ih (c + 1) k tc (by simpa using h)

/-- C1: the output stream has exactly one numeric result per testcase record,
with the same length as the input sequence, and the result at index `k` is the
one computed for the testcase at index `k`; nothing is reordered or dropped. -/
theorem mainRun_preserves_order (fE : Testcase → FloatVal) (tcs : List Testcase) :
    (mainRun fE tcs).length = tcs.length ∧
    ∀ k : ℕ, (mainRun fE tcs).get? k = (tcs.get? k).map (fun tc => (calculate fE tc).1) := by
  refine ⟨by simp [mainRun], fun k => ?_⟩
  simp [mainRun, List.get?_map]

/-- C2: the Precision Dispatcher returns the full-precision result exactly
when the reduced-precision result is non-finite, zero, or below the underflow
threshold, and the reduced-precision value itself otherwise; its execution log
runs the reduced engine first, holds at most two entries, and every entry is
the same testcase — so no mixing of precisions and at most two computations. -/
theorem dispatch_fallback_policy (fE : Testcase → FloatVal) (dE : Testcase → ℚ)
    (tc : Testcase) :
    dispatch fE dE tc =
      (if untrustworthy (fE tc) then
        (dE tc, [(Precision.reduced, tc), (Precision.full, tc)])
       else ((fE tc).val, [(Precision.reduced, tc)])) ∧
    (dispatch fE dE tc).2.length ≤ 2 ∧
    ((dispatch fE dE tc).2.map Prod.snd) =
      List.replicate (dispatch fE dE tc).2.length tc := by
  by_cases h : untrustworthy (fE tc) <;> simp [dispatch, h, List.replicate]

/-- C3: for a non-empty read and haplotype, the Forward Engine's scalar is the
sum of `M[R][j] + I[R][j]` over `j = 1..H`, where `M`, `I`, `D` satisfy the
spec's three-state recurrence, with the spec's emission choice, a uniform
constant on row 0 of `M`, and zero column 0 for Match and Deletion. -/
theorem forwardEngine_matches_recurrence (tc : Testcase)
    (hR : 1 ≤ tc.read.length) (hH : 1 ≤ tc.hap.length) :
    forwardEngine tc =
      (Finset.Icc 1 tc.hap.length).sum
        (fun j => Mspec tc tc.read.length j + Ispec tc tc.read.length j) ∧
    (∀ i j, 1 ≤ i → 1 ≤ j →
      Mspec tc i j =
        emission tc i j *
          (Mspec tc (i - 1) (j - 1) * (1 - tc.quals.oIns i - tc.quals.oDel i) +
           Ispec tc (i - 1) (j - 1) * (1 - tc.quals.cIns i) +
           Dspec tc (i - 1) (j - 1) * (1 - tc.quals.cDel i))) ∧
    (∀ i j, 1 ≤ i → 1 ≤ j →
      Ispec tc i j =
        tc.quals.oIns i * Mspec tc (i - 1) j + tc.quals.cIns i * Ispec tc (i - 1) j) ∧
    (∀ i j, 1 ≤ i → 1 ≤ j →
      Dspec tc i j =
        tc.quals.oDel i * Mspec tc i (j - 1) + tc.quals.cDel i * Dspec tc i (j - 1)) ∧
    (∀ i j, emission tc i j =
      if baseAt tc.read i = baseAt tc.hap j then tc.quals.mEmit i else tc.quals.xEmit i) ∧
    (∀ j, 1 ≤ j → Mspec tc 0 j = initConst tc.hap.length) ∧
    (∀ i, Mspec tc i 0 = 0 ∧ Dspec tc i 0 = 0) := by
  have hrows := rows_eq_MID tc tc.read.length
  refine ⟨?_, ?_, ?_, ?_, fun i j => rfl, ?_, ?_⟩
  · unfold forwardEngine
    rw [← Nat.Ico_succ_right, Finset.sum_Ico_eq_sum_range]
    simp only [Nat.succ_sub_one]
    refine Finset.sum_congr rfl (fun j _ => ?_)
    rw [Nat.add_comm 1 j, hrows.1 (j + 1), hrows.2.1 (j + 1)]
  · intro i j hi hj
    obtain ⟨i, rfl⟩ : ∃ a, i = a + 1 := ⟨i - 1, by omega⟩
    obtain ⟨j, rfl⟩ : ∃ a, j = a + 1 := ⟨j - 1, by omega⟩
    simp [Mspec, Ispec, Dspec, MID, stayM]
  · intro i j hi hj
    obtain ⟨i, rfl⟩ : ∃ a, i = a + 1 := ⟨i - 1, by omega⟩
    obtain ⟨j, rfl⟩ : ∃ a, j = a + 1 := ⟨j - 1, by omega⟩
    simp [Mspec, Ispec, MID]
  · intro i j hi hj
    obtain ⟨i, rfl⟩ : ∃ a, i = a + 1 := ⟨i - 1, by omega⟩
    obtain ⟨j, rfl⟩ : ∃ a, j = a + 1 := ⟨j - 1, by omega⟩
    simp [Mspec, Dspec, MID]
  · intro j hj
    obtain ⟨j, rfl⟩ : ∃ a, j = a + 1 := ⟨j - 1, by omega⟩
    simp [Mspec, MID]
  · intro i
    constructor <;> simp [Mspec, Dspec, MID_col0]

/-- Witness for C3 at the concrete `"ACGT"`-vs-`"ACGT"` scenario. -/
theorem forwardEngine_matches_recurrence_witness :
    forwardEngine tcACGT =
      (Finset.Icc 1 tcACGT.hap.length).sum
        (fun j => Mspec tcACGT tcACGT.read.length j + Ispec tcACGT tcACGT.read.length j) :=
  (forwardEngine_matches_recurrence tcACGT (by norm_num [tcACGT]) (by norm_num [tcACGT])).1

/-- C4: an empty haplotype with a non-empty read yields exactly 0. -/
theorem forwardEngine_empty_hap_zero (tc : Testcase)
    (hH : tc.hap.length = 0) (hR : 0 < tc.read.length) : forwardEngine tc = 0 := by
  simp [forwardEngine, hH]

/-- Witness for C4. -/
theorem forwardEngine_empty_hap_zero_witness : forwardEngine tcNoHap = 0 :=
  forwardEngine_empty_hap_zero tcNoHap (by norm_num [tcNoHap]) (by norm_num [tcNoHap])

/-- C5 (amended): with an empty read and a non-empty haplotype the result is
the fixed baseline `1` (the empty product of insertion-avoidance terms),
independent of the haplotype's content and length. -/
theorem forwardEngine_empty_read_baseline (tc : Testcase)
    (hR : tc.read.length = 0) (hH : 1 ≤ tc.hap.length) : forwardEngine tc = 1 := by
  have hne : (tc.hap.length : ℚ) ≠ 0 := Nat.cast_ne_zero.mpr (by omega)
  simp [forwardEngine, hR, rows, row0M, initConst, Finset.sum_const, Finset.card_range,
    nsmul_eq_mul]
  field_simp

/-- Witness for the amended C5. -/
theorem forwardEngine_empty_read_baseline_witness : forwardEngine tcR0H1 = 1 :=
  forwardEngine_empty_read_baseline tcR0H1 rfl (by norm_num [tcR0H1])

/-- Counterexample to C5 as stated: two testcases with empty reads whose
results differ (0 for the empty haplotype, 1 otherwise), so the `R = 0` result
is not independent of the haplotype's length. -/
theorem emptyRead_result_depends_on_hap :
    tcR0H0.read.length = 0 ∧ tcR0H1.read.length = 0 ∧
    forwardEngine tcR0H0 ≠ forwardEngine tcR0H1 := by
  refine ⟨rfl, rfl, ?_⟩
  norm_num [forwardEngine, tcR0H0, tcR0H1, rows, row0M, initConst]

/-- C7: the pipeline is a pure function of its input — two runs on identical
input sequences produce identical output. -/
theorem mainRun_deterministic (fE : Testcase → FloatVal) (tcs₁ tcs₂ : List Testcase)
    (h : tcs₁ = tcs₂) : mainRun fE tcs₁ = mainRun fE tcs₂ := by
  rw [h]

/-- Witness for C7. -/
theorem mainRun_deterministic_witness :
    mainRun fE0 [tcACGT] = mainRun fE0 [tcACGT] :=
  mainRun_deterministic fE0 [tcACGT] [tcACGT] rfl

/-- C10: the input file named by `argv[1]` is used exactly when `argc = 2`;
for any other argument count the reader keeps its default source. -/
theorem chooseSource_spec (argv : List String) :
    (argv.length = 2 → chooseSource argv = Source.file (argv.getD 1 (""))) ∧
    (argv.length ≠ 2 → chooseSource argv = Source.defaultSrc) := by
  constructor <;> intro h <;> simp [chooseSource, h]

/-- Witness for C10: both branches at concrete argument vectors. -/
theorem chooseSource_spec_witness :
    chooseSource [("pairhmm"), ("tests.in")] = Source.file ("tests.in") ∧
    chooseSource [("pairhmm")] = Source.defaultSrc := by
  constructor
  · have h := (chooseSource_spec [("pairhmm"), ("tests.in")]).1 (by rfl)
    simpa using h
  · exact (chooseSource_spec [("pairhmm")]).2 (by simp)

/-- C9: testcases are processed strictly sequentially — the trace is ordered
by testcase index (so every computation and the emission of testcase `k` occur
before any event of testcase `k+1`), and the events of testcase `k` are its
engine runs (including any fallback re-run) followed by its emission. -/
theorem trace_strictly_sequential (fE : Testcase → FloatVal) (tcs : List Testcase) :
    (trace fE tcs).Pairwise (fun a b => Ev.idx a ≤ Ev.idx b) ∧
    (∀ k tc, tcs.get? k = some tc →
      (trace fE tcs).filter (fun e => Ev.idx e == k) =
        ((calculate fE tc).2.map (fun e => Ev.comp k e.1)) ++ [Ev.emit k]) := by
  refine ⟨traceFrom_pairwise fE tcs 0, fun k tc h => ?_⟩
  have hf := traceFrom_filter fE tcs 0 k tc h
  simpa [block] using hf

/-- Witness for C9 at a concrete two-testcase stream. -/
theorem trace_strictly_sequential_witness :
    (trace fE0 [tcACGT, tcNoHap]).filter (fun e => Ev.idx e == 0) =
      ((calculate fE0 tcACGT).2.map (fun e => Ev.comp 0 e.1)) ++ [Ev.emit 0] :=
  (trace_strictly_sequential fE0 [tcACGT, tcNoHap]).2 0 tcACGT rfl

/-- C6 (amended): with valid Quality-Model outputs the result is always
non-negative, and it is at most `1` whenever the deletion-open and
deletion-continue probabilities do not vary with the read position.  (The
upper bound can fail for position-dependent deletion probabilities; see the
counterexample.) -/
theorem forwardEngine_nonneg_and_bounded (tc : Testcase) (hv : Valid tc) :
    0 ≤ forwardEngine tc ∧
    ((∃ od cd, (∀ i, tc.quals.oDel i = od) ∧ (∀ i, tc.quals.cDel i = cd)) →
      forwardEngine tc ≤ 1) := by
  constructor
  · unfold forwardEngine
    refine Finset.sum_nonneg (fun j _ => ?_)
    obtain ⟨hm, hI, _⟩ := rows_nonneg tc hv tc.read.length le_rfl
    exact add_nonneg (hm (j + 1)) (hI (j + 1))
  · rintro ⟨od, cd, hod, hcd⟩
    have hinv := mass_invariant tc hv od cd hod hcd tc.read.length le_rfl
    have hM0 : (rows tc tc.read.length).1 0 = 0 := by
      rw [(rows_eq_MID tc tc.read.length).1 0, Mspec, MID_col0]
    have hI0 : (rows tc tc.read.length).2.1 0 = 0 := by
      rw [(rows_eq_MID tc tc.read.length).2.1 0, Ispec, MID_col0]
    have hsplit : forwardEngine tc = rowMassM tc tc.read.length + rowMassI tc tc.read.length := by
      unfold forwardEngine rowMassM rowMassI
      rw [Finset.sum_range_succ' ((rows tc tc.read.length).1) tc.hap.length,
        Finset.sum_range_succ' ((rows tc tc.read.length).2.1) tc.hap.length,
        hM0, hI0, add_zero, add_zero, ← Finset.sum_add_distrib]
    rw [hsplit]
    exact hinv

/-- Witness for the amended C6 at the `"ACGT"` scenario with uniform
Quality-Model outputs. -/
theorem forwardEngine_nonneg_and_bounded_witness :
    0 ≤ forwardEngine tcACGT ∧ forwardEngine tcACGT ≤ 1 := by
  have hv : Valid tcACGT := by
    intro i hi
    refine ⟨?_, ?_, ?_, ?_, ?_, ?_, ?_, ?_, ?_, ?_, ?_⟩ <;> norm_num [tcACGT, pUnif]
  exact ⟨(forwardEngine_nonneg_and_bounded tcACGT hv).1,
    (forwardEngine_nonneg_and_bounded tcACGT hv).2
      ⟨1 / 100, 1 / 10, fun i => rfl, fun i => rfl⟩⟩

/-- Counterexample to C6 as stated: `tcSkew` satisfies the Quality-Model
contract, yet the forward probability exceeds `1`. -/
theorem forwardEngine_can_exceed_one : Valid tcSkew ∧ 1 < forwardEngine tcSkew := by
  constructor
  · intro i hi
    have hi2 : i < 2 := by simpa [tcSkew] using hi
    interval_cases i <;>
      refine ⟨?_, ?_, ?_, ?_, ?_, ?_, ?_, ?_, ?_, ?_, ?_⟩ <;> norm_num [tcSkew, pSkew]
  · norm_num [forwardEngine, Finset.sum_range_succ, rows, mRow, iRow, dRow, row0M,
      initConst, emission, baseAt, stayM, pSkew, tcSkew]
